import Mathlib

/-!
Shallow embedding of `src/task3/driver.js` (anonymous e-cash with cheater
identification): coin parsing (`parseCoin`), merchant acceptance
(`acceptCoin`) and double-spend resolution (`determineCheater`), together
with theorems checking the specification's claims about them.

JS byte buffers are `List Nat` (each entry a byte value), JS strings are
`List Char`.  External collaborators (the blind-signature `verify`, the
`hash` primitive, the per-round random draws) are parameters, as the spec
declares them out of scope.  Constants exported by `coin.js` (which is not
part of the sources here) are modelled from the spec where a concrete value
is needed and kept as parameters otherwise.
-/

namespace ECash

/-- A byte string (JS `Buffer`): list of byte values. -/
abbrev Bytes := List Nat

/-- A JS string, as its list of characters. -/
abbrev Str := List Char

/-- Modelled from the spec: the reserved identity marker `IDENT_STR`
exported by `coin.js` (not under `src/`).  The spec's example scenario shows
the decoded XOR as `"IDENT-alice"`, so the marker is the ASCII bytes of
`"IDENT"` (73 68 69 78 84). -/
def IDENT_STR : Bytes := [73, 68, 69, 78, 84]

/-- JS `s.split(sep)` for a one-character separator: splits a character
list at every occurrence of `sep`; never returns the empty list
(`"".split('-') == [""]`). -/
def splitChar (sep : Char) : Str → List Str
  | [] => [[]]
  | c :: cs =>
    let rest := splitChar sep cs
    if c = sep then [] :: rest
    else
      match rest with
      | [] => [[c]]
      | r :: rs => (c :: r) :: rs

/-- Errors raised by `acceptCoin` / `parseCoin` in `driver.js`:
`malformedCoin` is the `Invalid identity string` throw of `parseCoin` (it
carries the offending tag), `runtimeTypeError` is the JS `TypeError` raised
when the coin string has fewer than five `-`-separated fields (so
`leftHashes.split` is called on `undefined`), `invalidSignature` is the
`Invalid coin signature.` throw, and `shareCommitmentMismatch i` is the
`RIS hash mismatch at index i` throw. -/
inductive AcceptError where
  | malformedCoin (tag : Str)
  | runtimeTypeError
  | invalidSignature
  | shareCommitmentMismatch (i : Nat)
  deriving DecidableEq, Repr

/-- Error raised by `determineCheater` when a revealed share set has no
entry at a round index (JS `TypeError` from `Buffer.from(undefined, 'hex')`). -/
inductive ResolveError where
  | indexOutOfRange (i : Nat)
  deriving DecidableEq, Repr

/-- Verdict of double-spend resolution.  `buyerIdentified` carries the
bytes of the marker-prefixed XOR string `determineCheater` prints as the
cheater's identity (`ID: ${xorStr}`); the owner identity is its remainder
after the marker. -/
inductive Verdict where
  | buyerIdentified (ident : Bytes)
  | merchantSuspected
  deriving DecidableEq, Repr

/-- Lifecycle error of the coin's signing glue (spec section 4.2). -/
inductive CoinError where
  | alreadySigned
  deriving DecidableEq, Repr

/-- The coin record (fields read by `driver.js`; the `Coin` class itself
lives in `coin.js`, not under `src/`): bank parameters `n`/`e`, the
commitment string returned by `coin.toString()`, the per-round left/right
identity shares behind `getRis`, the guid, and the (initially absent)
signature. -/
structure Coin where
  ownerIdentity : Str
  amount : Nat
  guid : Str
  n : Str
  e : Str
  coinString : Str
  leftShares : List Bytes
  rightShares : List Bytes
  signature : Option Nat
  deriving DecidableEq, Repr

/-- Modelled from the spec: `reveal_share(round_index, side)` returns
`left_shares[round_index]` or `right_shares[round_index]`, read-only
(`Coin.getRis` lives in `coin.js`, which is not under `src/`). -/
def Coin.getRis (c : Coin) (chooseLeft : Bool) (i : Nat) : Bytes :=
  if chooseLeft then c.leftShares.getD i [] else c.rightShares.getD i []

/-- Modelled from the spec: `attach_signature(sig)` stores the bank's
response as a pure data assignment with no verification, and fails with
`AlreadySigned` if the coin already carries a signature (section 4.2; the
`Coin` class is in `coin.js`, not under `src/`). -/
def attachSignature (c : Coin) (sig : Nat) : Except CoinError Coin :=
  match c.signature with
  | some _ => .error .alreadySigned
  | none => .ok { c with signature := some sig }

/-- `parseCoin` from `driver.js`: split the coin string on `-`, check the
leading tag against the bank identifier (`BANK_STR`, imported from
`coin.js` and therefore a parameter here), then split the fourth and fifth
fields on `,` into the left/right hash lists.  The destructuring
`let [cnst, amt, guid, leftHashes, rightHashes] = s.split('-')` itself
cannot fail; a missing fourth or fifth field only fails at the subsequent
`.split(',')` call, after the tag check. -/
def parseCoin (bankStr : Str) (s : Str) : Except AcceptError (List Str × List Str) :=
  let parts := splitChar '-' s
  let cnst := parts.getD 0 []
  if cnst ≠ bankStr then .error (.malformedCoin cnst)
  else
    match parts[3]?, parts[4]? with
    | some leftHashes, some rightHashes =>
      .ok (splitChar ',' leftHashes, splitChar ',' rightHashes)
    | _, _ => .error .runtimeTypeError

/-- The acceptance loop of `acceptCoin` (`for (let i = 0; ...)`): at round
`i` draw the random side `bits i`, reveal that share, hash it and compare
with the committed hash (`leftHashes[i]` / `rightHashes[i]`; an
out-of-range committed hash is JS `undefined` and never equals the hash
string, hence the `Option` comparison).  The first mismatch throws
`RIS hash mismatch at index i`; otherwise the revealed share is appended. -/
def acceptLoop (hash : Bytes → Str) (c : Coin) (lh rh : List Str)
    (bits : Nat → Bool) : Nat → Nat → Except AcceptError (List Bytes)
  | _, 0 => .ok []
  | i, m + 1 =>
    let chooseLeft := bits i
    let part := c.getRis chooseLeft i
    let hashed := hash part
    let expected := if chooseLeft then lh[i]? else rh[i]?
    if some hashed = expected then
      match acceptLoop hash c lh rh bits (i + 1) m with
      | .ok rest => .ok (part :: rest)
      | .error e => .error e
    else .error (.shareCommitmentMismatch i)

/-- `acceptCoin` from `driver.js`.  Step 1 verifies the signature with the
external `blindSignatures.verify` primitive on the coin's embedded
parameters (`coin.signature`, `coin.n`, `coin.e`) and the commitment string
`coin.toString()`; failure throws `Invalid coin signature.`.  Step 2 parses
the commitment string (tag check included) and runs the per-round hash
check over `COIN_RIS_LENGTH` (= `k`) rounds.  The coin is returned
alongside the result: no statement of the source mutates it. -/
def acceptCoin (verify : Option Nat → Str → Str → Str → Bool)
    (hash : Bytes → Str) (bankStr : Str) (k : Nat) (bits : Nat → Bool)
    (c : Coin) : Except AcceptError (List Bytes) × Coin :=
  let valid := verify c.signature c.n c.e c.coinString
  if valid then
    match parseCoin bankStr c.coinString with
    | .error e => (.error e, c)
    | .ok (lh, rh) => (acceptLoop hash c lh rh bits 0 k, c)
  else (.error .invalidSignature, c)

/-- The ordered revealed share set the acceptance loop returns on success:
starting at round `i`, the next `m` shares on the drawn sides. -/
def risList (c : Coin) (bits : Nat → Bool) : Nat → Nat → List Bytes
  | _, 0 => []
  | i, m + 1 => c.getRis (bits i) i :: risList c bits (i + 1) m

/-- Round `i` of the acceptance loop matches: the committed hash on the
drawn side exists and equals the hash of the revealed share. -/
def matchesAt (hash : Bytes → Str) (c : Coin) (lh rh : List Str)
    (bits : Nat → Bool) (i : Nat) : Prop :=
  (if bits i then lh[i]? else rh[i]?) = some (hash (c.getRis (bits i) i))

instance (hash : Bytes → Str) (c : Coin) (lh rh : List Str)
    (bits : Nat → Bool) (i : Nat) :
    Decidable (matchesAt hash c lh rh bits i) := by
  unfold matchesAt; infer_instance

/-- The byte-wise XOR of `determineCheater`: the result has the length of
the first buffer; where the second buffer has no byte, JS evaluates
`buf1[j] ^ undefined`, i.e. `buf1[j] ^ 0`. -/
def xorBytes : Bytes → Bytes → Bytes
  | [], _ => []
  | a :: as, [] => (a ^^^ 0) :: xorBytes as []
  | a :: as, b :: bs => (a ^^^ b) :: xorBytes as bs

/-- JS `xorStr.startsWith(IDENT_STR)` on the UTF-8 decoding of the XOR
buffer, stated on bytes: for an ASCII marker the decoded string starts with
the marker exactly when the byte string does (ASCII bytes decode
one-to-one; malformed bytes decode to the non-ASCII replacement
character). -/
def startsWithBytes : Bytes → Bytes → Bool
  | [], _ => true
  | _ :: _, [] => false
  | m :: ms, x :: xs => m == x && startsWithBytes ms xs

/-- The round loop of `determineCheater`: at round `i`, decode the two
reported shares (a missing entry is the JS `TypeError` of
`Buffer.from(undefined, 'hex')`), XOR them, and if the XOR starts with the
identity marker, answer `buyerIdentified` with it at once; after all rounds
without a match, answer `merchantSuspected`. -/
def determineCheaterLoop (identStr : Bytes) (ris1 ris2 : List Bytes) :
    Nat → Nat → Except ResolveError Verdict
  | _, 0 => .ok .merchantSuspected
  | i, m + 1 =>
    match ris1[i]?, ris2[i]? with
    | some buf1, some buf2 =>
      if startsWithBytes identStr (xorBytes buf1 buf2) then
        .ok (.buyerIdentified (xorBytes buf1 buf2))
      else determineCheaterLoop identStr ris1 ris2 (i + 1) m
    | _, _ => .error (.indexOutOfRange i)

/-- `determineCheater` from `driver.js`: loop the first `k`
(= `COIN_RIS_LENGTH`, a `coin.js` constant, hence a parameter) rounds over
the two reported share sets.  The `guid` argument is taken as in the
source, which never reads it. -/
def determineCheater (identStr : Bytes) (k : Nat) (guid : Str)
    (ris1 ris2 : List Bytes) : Except ResolveError Verdict :=
  determineCheaterLoop identStr ris1 ris2 0 k

/-- Truncate or zero-pad `b` to the length of `a`: the effective second
operand of `xorBytes a b`. -/
def truncPad : Bytes → Bytes → Bytes
  | [], _ => []
  | _ :: as, [] => 0 :: truncPad as []
  | _ :: as, b :: bs => b :: truncPad as bs

/-! ### Basic lemmas about the resolution primitives -/

theorem xorBytes_self (b : Bytes) : xorBytes b b = List.replicate b.length 0 := by
  induction b with
  | nil => rfl
  | cons a as ih => simp [xorBytes, List.replicate, ih]

theorem startsWithBytes_IDENT_zero (n : Nat) :
    startsWithBytes IDENT_STR (List.replicate n 0) = false := by
  cases n with
  | zero => rfl
  | succ m => simp [IDENT_STR, startsWithBytes, List.replicate]

theorem xorBytes_truncPad (a b : Bytes) : xorBytes a (truncPad a b) = xorBytes a b := by
  induction a generalizing b with
  | nil => cases b <;> rfl
  | cons x as ih =>
    cases b with
    | nil => simp [truncPad, xorBytes, ih]
    | cons y bs => simp [truncPad, xorBytes, ih]

theorem getD_eq_of_getElem? {l : List Bytes} {i : Nat} {b : Bytes}
    (h : l[i]? = some b) : l.getD i [] = b := by
  simp [List.getD_eq_getElem?_getD, h]

/-- When the index is in range, the loop's lookup yields the `getD` value. -/
theorem getElem?_eq_some_getD {l : List Bytes} {i : Nat} (h : i < l.length) :
    l[i]? = some (l.getD i []) := by
  simp [List.getElem?_eq_getElem h, List.getD_eq_getElem?_getD]

/-! ### Behaviour of the resolution loop -/

theorem determineCheaterLoop_self (ris : List Bytes) :
    ∀ m i, i + m ≤ ris.length →
      determineCheaterLoop IDENT_STR ris ris i m = .ok .merchantSuspected := by
  intro m
  induction m with
  | zero => intro i _; rfl
  | succ m ih =>
    intro i h
    have hi : i < ris.length := by omega
    have hs : ris[i]? = some (ris.getD i []) := getElem?_eq_some_getD hi
    simp only [determineCheaterLoop, hs]
    rw [xorBytes_self, startsWithBytes_IDENT_zero]
    simp only [Bool.false_eq_true, if_false]
    exact ih (i + 1) (by omega)

theorem determineCheaterLoop_total (identStr : Bytes) (ris1 ris2 : List Bytes) :
    ∀ m i, i + m ≤ ris1.length → i + m ≤ ris2.length →
      ∃ v, determineCheaterLoop identStr ris1 ris2 i m = .ok v := by
  intro m
  induction m with
  | zero => exact fun i _ _ => ⟨.merchantSuspected, rfl⟩
  | succ m ih =>
    intro i h1 h2
    have hs1 : ris1[i]? = some (ris1.getD i []) := getElem?_eq_some_getD (by omega)
    have hs2 : ris2[i]? = some (ris2.getD i []) := getElem?_eq_some_getD (by omega)
    simp only [determineCheaterLoop, hs1, hs2]
    by_cases hc : startsWithBytes identStr
        (xorBytes (ris1.getD i []) (ris2.getD i [])) = true
    · exact ⟨_, by rw [if_pos hc]⟩
    · rw [if_neg hc]
      exact ih (i + 1) (by omega) (by omega)

theorem determineCheaterLoop_found (identStr : Bytes) (ris1 ris2 : List Bytes) :
    ∀ m i t, t < m → i + t < ris1.length → i + t < ris2.length →
      (∀ u, u < t → startsWithBytes identStr
          (xorBytes (ris1.getD (i + u) []) (ris2.getD (i + u) [])) = false) →
      startsWithBytes identStr
          (xorBytes (ris1.getD (i + t) []) (ris2.getD (i + t) [])) = true →
      determineCheaterLoop identStr ris1 ris2 i m =
        .ok (.buyerIdentified
          (xorBytes (ris1.getD (i + t) []) (ris2.getD (i + t) []))) := by
  intro m
  induction m with
  | zero => intro i t ht; omega
  | succ m ih =>
    intro i t htm ht1 ht2 hbefore hmatch
    have hs1 : ris1[i]? = some (ris1.getD i []) := getElem?_eq_some_getD (by omega)
    have hs2 : ris2[i]? = some (ris2.getD i []) := getElem?_eq_some_getD (by omega)
    simp only [determineCheaterLoop, hs1, hs2]
    cases t with
    | zero =>
      simp only [Nat.add_zero] at hmatch
      rw [if_pos hmatch]
      simp
    | succ u =>
      have hzero : startsWithBytes identStr
          (xorBytes (ris1.getD i []) (ris2.getD i [])) = false := by
        have := hbefore 0 (Nat.succ_pos u)
        simpa using this
      rw [hzero]
      simp only [Bool.false_eq_true, if_false]
      have harith : i + (u + 1) = (i + 1) + u := by omega
      rw [harith] at ht1 ht2 hmatch ⊢
      exact ih (i + 1) u (by omega) ht1 ht2
        (fun u' hu' => by
          have := hbefore (u' + 1) (by omega)
          have h2 : i + (u' + 1) = (i + 1) + u' := by omega
          rwa [h2] at this)
        hmatch

/-! ### Claims about double-spend resolution -/

/-- C1: for equal-length revealed share sets of the same coin, if some
round's byte-wise XOR starts with the reserved identity marker, resolution
returns `buyerIdentified` with the marker-prefixed XOR (whose remainder is
the owner identity) of the first such round, returning immediately and
examining no later round. -/
theorem resolve_buyer_first_match (identStr : Bytes) (k : Nat) (guid : Str)
    (ris1 ris2 : List Bytes) (i : Nat)
    (hk1 : ris1.length = k) (hk2 : ris2.length = k)
    (hlen : ∀ j, j < k → (ris1.getD j []).length = (ris2.getD j []).length)
    (hik : i < k)
    (hfirst : ∀ j, j < i → startsWithBytes identStr
        (xorBytes (ris1.getD j []) (ris2.getD j [])) = false)
    (hmatch : startsWithBytes identStr
        (xorBytes (ris1.getD i []) (ris2.getD i [])) = true) :
    determineCheater identStr k guid ris1 ris2 =
      .ok (.buyerIdentified (xorBytes (ris1.getD i []) (ris2.getD i []))) := by
  have h := determineCheaterLoop_found identStr ris1 ris2 k 0 i hik
    (by omega) (by omega) (by simpa using hfirst) (by simpa using hmatch)
  simpa [determineCheater] using h

theorem resolve_buyer_first_match_witness :
    (([[0], [73, 68, 69, 78, 84, 97]] : List Bytes).length = 2) ∧
    (([[0], [0, 0, 0, 0, 0, 0]] : List Bytes).length = 2) ∧
    (∀ j, j < 2 → ((([[0], [73, 68, 69, 78, 84, 97]] : List Bytes).getD j []).length =
      (([[0], [0, 0, 0, 0, 0, 0]] : List Bytes).getD j []).length)) ∧
    (1 < 2) ∧
    (∀ j, j < 1 → startsWithBytes IDENT_STR
      (xorBytes (([[0], [73, 68, 69, 78, 84, 97]] : List Bytes).getD j [])
        (([[0], [0, 0, 0, 0, 0, 0]] : List Bytes).getD j [])) = false) ∧
    (startsWithBytes IDENT_STR
      (xorBytes (([[0], [73, 68, 69, 78, 84, 97]] : List Bytes).getD 1 [])
        (([[0], [0, 0, 0, 0, 0, 0]] : List Bytes).getD 1 [])) = true) ∧
    determineCheater IDENT_STR 2 [] [[0], [73, 68, 69, 78, 84, 97]]
        [[0], [0, 0, 0, 0, 0, 0]] =
      .ok (.buyerIdentified [73, 68, 69, 78, 84, 97]) :=
  ⟨by decide, by decide, by decide, by decide, by decide, by decide,
    resolve_buyer_first_match IDENT_STR 2 [] [[0], [73, 68, 69, 78, 84, 97]]
      [[0], [0, 0, 0, 0, 0, 0]] 1 (by decide) (by decide) (by decide)
      (by decide) (by decide) (by decide)⟩

/-- C2: resolving a revealed share set against an identical copy of itself
yields `merchantSuspected`: every per-round XOR is all-zero, which never
starts with the identity marker, so the buyer branch is never taken. -/
theorem resolve_self_merchantSuspected (k : Nat) (guid : Str)
    (ris : List Bytes) (h : k ≤ ris.length) :
    determineCheater IDENT_STR k guid ris ris = .ok .merchantSuspected :=
  determineCheaterLoop_self ris k 0 (by omega)

theorem resolve_self_merchantSuspected_witness :
    2 ≤ ([[1, 2], [3]] : List Bytes).length ∧
    determineCheater IDENT_STR 2 [] [[1, 2], [3]] [[1, 2], [3]] =
      .ok .merchantSuspected :=
  ⟨by decide, resolve_self_merchantSuspected 2 [] [[1, 2], [3]] (by decide)⟩

/-- C7: for well-formed revealed share sets with at least `k` rounds each,
resolution never fails: it returns exactly one verdict, either
`buyerIdentified` or `merchantSuspected`, and no error branch is
reachable. -/
theorem resolve_total (identStr : Bytes) (k : Nat) (guid : Str)
    (ris1 ris2 : List Bytes) (h1 : k ≤ ris1.length) (h2 : k ≤ ris2.length)
    (hlen : ∀ i, i < k → (ris1.getD i []).length = (ris2.getD i []).length) :
    (determineCheater identStr k guid ris1 ris2 = .ok .merchantSuspected) ∨
    (∃ ident, determineCheater identStr k guid ris1 ris2 =
      .ok (.buyerIdentified ident)) := by
  obtain ⟨v, hv⟩ :=
    determineCheaterLoop_total identStr ris1 ris2 k 0 (by omega) (by omega)
  cases v with
  | buyerIdentified ident => exact Or.inr ⟨ident, hv⟩
  | merchantSuspected => exact Or.inl hv

theorem resolve_total_witness :
    1 ≤ ([[5]] : List Bytes).length ∧ 1 ≤ ([[6]] : List Bytes).length ∧
    ((determineCheater IDENT_STR 1 [] [[5]] [[6]] = .ok .merchantSuspected) ∨
     (∃ ident, determineCheater IDENT_STR 1 [] [[5]] [[6]] =
       .ok (.buyerIdentified ident))) :=
  ⟨by decide, by decide,
    resolve_total IDENT_STR 1 [] [[5]] [[6]] (by decide) (by decide) (by decide)⟩

/-- C10: the resolution verdict does not depend on the `guid` argument:
`determineCheater` ignores it entirely. -/
theorem resolve_guid_irrelevant (identStr : Bytes) (k : Nat) (g1 g2 : Str)
    (ris1 ris2 : List Bytes) :
    determineCheater identStr k g1 ris1 ris2 =
      determineCheater identStr k g2 ris1 ris2 := rfl

/-! ### Unequal per-round lengths (claim C5) -/

theorem determineCheaterLoop_truncPad (identStr : Bytes) (r1 r2 : List Bytes)
    (hlen : r2.length = r1.length) :
    ∀ m i, determineCheaterLoop identStr r1 (List.zipWith truncPad r1 r2) i m =
      determineCheaterLoop identStr r1 r2 i m := by
  intro m
  induction m with
  | zero => intro i; rfl
  | succ m ih =>
    intro i
    by_cases hi : i < r1.length
    · have hs1 : r1[i]? = some (r1.getD i []) := getElem?_eq_some_getD hi
      have hs2 : r2[i]? = some (r2.getD i []) := getElem?_eq_some_getD (by omega)
      have hsz : (List.zipWith truncPad r1 r2)[i]? =
          some (truncPad (r1.getD i []) (r2.getD i [])) := by
        rw [List.getElem?_zipWith', hs1, hs2]; rfl
      simp only [determineCheaterLoop, hs1, hs2, hsz, xorBytes_truncPad]
      by_cases hc : startsWithBytes identStr
          (xorBytes (r1.getD i []) (r2.getD i [])) = true
      · rw [if_pos hc, if_pos hc]
      · rw [if_neg hc, if_neg hc]
        exact ih (i + 1)
    · have hs1 : r1[i]? = none := by
        rw [List.getElem?_eq_none_iff]; omega
      simp only [determineCheaterLoop, hs1]

/-- C5 counterexample: with a round whose two entries have different byte
lengths, resolution does not fail — it still computes a verdict (here
`merchantSuspected`), refuting the claimed `LengthMismatch` failure. -/
theorem resolve_length_mismatch_counterexample :
    (([0] : Bytes).length ≠ ([0, 1] : Bytes).length) ∧
    determineCheater IDENT_STR 1 [] [[0]] [[0, 1]] = .ok .merchantSuspected :=
  ⟨by decide, rfl⟩

/-- C5 amended: resolution does not fail on unequal per-round byte lengths;
it computes a verdict anyway, XOR-ing over the first set's entry length
(out-of-range bytes of the second entry read as zero, its extra bytes
ignored): resolving `ris2` unchanged equals resolving it with each entry
truncated or zero-padded to the matching `ris1` entry's length. -/
theorem resolve_unequal_lengths_no_failure (identStr : Bytes) (k : Nat)
    (guid : Str) (ris1 ris2 : List Bytes)
    (h1 : k ≤ ris1.length) (hlen : ris2.length = ris1.length) :
    (∃ v, determineCheater identStr k guid ris1 ris2 = .ok v) ∧
    determineCheater identStr k guid ris1 ris2 =
      determineCheater identStr k guid ris1 (List.zipWith truncPad ris1 ris2) := by
  constructor
  · exact determineCheaterLoop_total identStr ris1 ris2 k 0 (by omega) (by omega)
  · exact (determineCheaterLoop_truncPad identStr ris1 ris2 hlen k 0).symm

theorem resolve_unequal_lengths_no_failure_witness :
    (1 ≤ ([[7]] : List Bytes).length) ∧
    (([[7, 9]] : List Bytes).length = ([[7]] : List Bytes).length) ∧
    ((∃ v, determineCheater IDENT_STR 1 [] [[7]] [[7, 9]] = .ok v) ∧
      determineCheater IDENT_STR 1 [] [[7]] [[7, 9]] =
        determineCheater IDENT_STR 1 [] [[7]]
          (List.zipWith truncPad [[7]] [[7, 9]])) :=
  ⟨by decide, by decide,
    resolve_unequal_lengths_no_failure IDENT_STR 1 [] [[7]] [[7, 9]]
      (by decide) (by decide)⟩

/-! ### Behaviour of the acceptance loop -/

theorem risList_length (c : Coin) (bits : Nat → Bool) :
    ∀ m i, (risList c bits i m).length = m := by
  intro m
  induction m with
  | zero => intro i; rfl
  | succ m ih => intro i; simp [risList, ih]

theorem acceptLoop_ok_of_all (hash : Bytes → Str) (c : Coin) (lh rh : List Str)
    (bits : Nat → Bool) :
    ∀ m i, (∀ t, t < m → matchesAt hash c lh rh bits (i + t)) →
      acceptLoop hash c lh rh bits i m = .ok (risList c bits i m) := by
  intro m
  induction m with
  | zero => intro i _; rfl
  | succ m ih =>
    intro i h
    have h0 : matchesAt hash c lh rh bits i := by simpa using h 0 (Nat.succ_pos m)
    have hrest := ih (i + 1) (fun t ht => by
      have := h (t + 1) (by omega)
      have harith : i + (t + 1) = (i + 1) + t := by omega
      rwa [harith] at this)
    simp only [acceptLoop, risList]
    rw [if_pos h0.symm, hrest]

theorem acceptLoop_all_of_ok (hash : Bytes → Str) (c : Coin) (lh rh : List Str)
    (bits : Nat → Bool) :
    ∀ m i r, acceptLoop hash c lh rh bits i m = .ok r →
      (∀ t, t < m → matchesAt hash c lh rh bits (i + t)) ∧
        r = risList c bits i m := by
  intro m
  induction m with
  | zero =>
    intro i r h
    refine ⟨fun t ht => absurd ht (by omega), ?_⟩
    simp only [acceptLoop] at h
    simpa [risList] using h.symm
  | succ m ih =>
    intro i r h
    simp only [acceptLoop] at h
    by_cases hc : some (hash (c.getRis (bits i) i)) =
        (if bits i then lh[i]? else rh[i]?)
    · rw [if_pos hc] at h
      cases hrec : acceptLoop hash c lh rh bits (i + 1) m with
      | error e => rw [hrec] at h; simp at h
      | ok rest =>
        rw [hrec] at h
        simp only [Except.ok.injEq] at h
        obtain ⟨hall, hrest⟩ := ih (i + 1) rest hrec
        refine ⟨?_, ?_⟩
        · intro t ht
          cases t with
          | zero => simpa [matchesAt] using hc.symm
          | succ u =>
            have := hall u (by omega)
            have harith : i + (u + 1) = (i + 1) + u := by omega
            rwa [harith]
        · rw [← h, hrest]; simp [risList]
    · rw [if_neg hc] at h
      simp at h

theorem acceptLoop_err_at (hash : Bytes → Str) (c : Coin) (lh rh : List Str)
    (bits : Nat → Bool) :
    ∀ m i t, t < m →
      (∀ u, u < t → matchesAt hash c lh rh bits (i + u)) →
      ¬ matchesAt hash c lh rh bits (i + t) →
      acceptLoop hash c lh rh bits i m =
        .error (.shareCommitmentMismatch (i + t)) := by
  intro m
  induction m with
  | zero => intro i t ht; omega
  | succ m ih =>
    intro i t htm hbefore hmiss
    simp only [acceptLoop]
    cases t with
    | zero =>
      simp only [Nat.add_zero] at hmiss ⊢
      rw [if_neg (fun hc => hmiss hc.symm)]
    | succ u =>
      have h0 : matchesAt hash c lh rh bits i := by
        simpa using hbefore 0 (Nat.succ_pos u)
      rw [if_pos h0.symm]
      have harith : i + (u + 1) = (i + 1) + u := by omega
      rw [harith] at hmiss ⊢
      rw [ih (i + 1) u (by omega) (fun u' hu' => by
        have := hbefore (u' + 1) (by omega)
        have h2 : i + (u' + 1) = (i + 1) + u' := by omega
        rwa [h2] at this) hmiss]

/-! ### Claims about acceptance -/

/-- C3: once the signature and tag checks succeed, acceptance returns the
ordered `k`-element revealed share set exactly when every round's revealed
share on the drawn side hashes to the corresponding committed hash
(`leftHashes[i]` / `rightHashes[i]`); at the first mismatching round it
fails with `shareCommitmentMismatch` for that round, so no partial share
set is ever returned. -/
theorem accept_rounds_iff (verify : Option Nat → Str → Str → Str → Bool)
    (hash : Bytes → Str) (bankStr : Str) (k : Nat) (bits : Nat → Bool)
    (c : Coin) (lh rh : List Str)
    (hv : verify c.signature c.n c.e c.coinString = true)
    (hp : parseCoin bankStr c.coinString = .ok (lh, rh)) :
    ((risList c bits 0 k).length = k) ∧
    (∀ ris, (acceptCoin verify hash bankStr k bits c).1 = .ok ris ↔
      ((∀ i, i < k → matchesAt hash c lh rh bits i) ∧
        ris = risList c bits 0 k)) ∧
    (∀ i, i < k → (∀ j, j < i → matchesAt hash c lh rh bits j) →
      ¬ matchesAt hash c lh rh bits i →
      (acceptCoin verify hash bankStr k bits c).1 =
        .error (.shareCommitmentMismatch i)) := by
  have hfirst : (acceptCoin verify hash bankStr k bits c).1 =
      acceptLoop hash c lh rh bits 0 k := by
    simp [acceptCoin, hv, hp]
  refine ⟨risList_length c bits k 0, ?_, ?_⟩
  · intro ris
    rw [hfirst]
    constructor
    · intro h
      obtain ⟨hall, hr⟩ := acceptLoop_all_of_ok hash c lh rh bits k 0 ris h
      exact ⟨fun i hi => by simpa using hall i hi, hr⟩
    · rintro ⟨hall, rfl⟩
      exact acceptLoop_ok_of_all hash c lh rh bits k 0
        (fun t ht => by simpa using hall t ht)
  · intro i hi hbefore hmiss
    rw [hfirst]
    have h := acceptLoop_err_at hash c lh rh bits k 0 i hi
      (fun u hu => by simpa using hbefore u hu) (by simpa using hmiss)
    simpa using h

theorem accept_rounds_iff_witness :
    ((fun (_ : Option Nat) (_ _ _ : Str) => true)
        (some 0) [] [] ("B-1-g-h,h-h,h".data) = true) ∧
    (parseCoin ("B".data) ("B-1-g-h,h-h,h".data) =
      .ok ([['h'], ['h']], [['h'], ['h']])) ∧
    (((risList ⟨[], 1, [], [], [], "B-1-g-h,h-h,h".data,
        [[1], [2]], [[3], [4]], some 0⟩ (fun _ => true) 0 2).length = 2) ∧
      (∀ ris, (acceptCoin (fun _ _ _ _ => true) (fun _ => ['h']) ("B".data) 2
          (fun _ => true)
          ⟨[], 1, [], [], [], "B-1-g-h,h-h,h".data,
            [[1], [2]], [[3], [4]], some 0⟩).1 = .ok ris ↔
        ((∀ i, i < 2 → matchesAt (fun _ => ['h'])
            ⟨[], 1, [], [], [], "B-1-g-h,h-h,h".data,
              [[1], [2]], [[3], [4]], some 0⟩
            [['h'], ['h']] [['h'], ['h']] (fun _ => true) i) ∧
          ris = risList ⟨[], 1, [], [], [], "B-1-g-h,h-h,h".data,
            [[1], [2]], [[3], [4]], some 0⟩ (fun _ => true) 0 2)) ∧
      (∀ i, i < 2 → (∀ j, j < i → matchesAt (fun _ => ['h'])
          ⟨[], 1, [], [], [], "B-1-g-h,h-h,h".data,
            [[1], [2]], [[3], [4]], some 0⟩
          [['h'], ['h']] [['h'], ['h']] (fun _ => true) j) →
        ¬ matchesAt (fun _ => ['h'])
          ⟨[], 1, [], [], [], "B-1-g-h,h-h,h".data,
            [[1], [2]], [[3], [4]], some 0⟩
          [['h'], ['h']] [['h'], ['h']] (fun _ => true) i →
        (acceptCoin (fun _ _ _ _ => true) (fun _ => ['h']) ("B".data) 2
          (fun _ => true)
          ⟨[], 1, [], [], [], "B-1-g-h,h-h,h".data,
            [[1], [2]], [[3], [4]], some 0⟩).1 =
          .error (.shareCommitmentMismatch i))) :=
  ⟨rfl, rfl,
    accept_rounds_iff (fun _ _ _ _ => true) (fun _ => ['h']) ("B".data) 2
      (fun _ => true)
      ⟨[], 1, [], [], [], "B-1-g-h,h-h,h".data, [[1], [2]], [[3], [4]], some 0⟩
      [['h'], ['h']] [['h'], ['h']] rfl rfl⟩

/-- C4: acceptance verifies the coin's signature against its commitment
string using the coin's embedded bank parameters (`coin.n` / `coin.e`);
when verification fails it fails with `invalidSignature` and no share set
is collected. -/
theorem accept_invalid_signature (verify : Option Nat → Str → Str → Str → Bool)
    (hash : Bytes → Str) (bankStr : Str) (k : Nat) (bits : Nat → Bool)
    (c : Coin) (hv : verify c.signature c.n c.e c.coinString = false) :
    (acceptCoin verify hash bankStr k bits c).1 = .error .invalidSignature ∧
    ∀ ris, (acceptCoin verify hash bankStr k bits c).1 ≠ .ok ris := by
  have h : (acceptCoin verify hash bankStr k bits c).1 =
      .error .invalidSignature := by
    simp [acceptCoin, hv]
  exact ⟨h, fun ris hok => by rw [h] at hok; exact Except.noConfusion hok⟩

theorem accept_invalid_signature_witness :
    ((fun (_ : Option Nat) (_ _ _ : Str) => false) none [] [] [] = false) ∧
    ((acceptCoin (fun _ _ _ _ => false) (fun _ => []) [] 1 (fun _ => true)
        ⟨[], 1, [], [], [], [], [], [], none⟩).1 = .error .invalidSignature ∧
      ∀ ris, (acceptCoin (fun _ _ _ _ => false) (fun _ => []) [] 1
        (fun _ => true) ⟨[], 1, [], [], [], [], [], [], none⟩).1 ≠ .ok ris) :=
  ⟨rfl, accept_invalid_signature (fun _ _ _ _ => false) (fun _ => []) [] 1
    (fun _ => true) ⟨[], 1, [], [], [], [], [], [], none⟩ rfl⟩

/-- C6 counterexample: the issuer-tag check does not precede the
cryptographic signature check — with a failing verifier and a coin whose
leading tag differs from the expected bank identifier, acceptance fails
with `invalidSignature`, not `malformedCoin`. -/
theorem accept_tag_after_signature_counterexample :
    ((splitChar '-' ("EVIL-1-g-h-h".data)).getD 0 [] ≠ "BANK".data) ∧
    ((acceptCoin (fun _ _ _ _ => false) (fun _ => []) ("BANK".data) 1
        (fun _ => true)
        ⟨[], 1, [], [], [], "EVIL-1-g-h-h".data, [], [], none⟩).1 =
      .error .invalidSignature) ∧
    ((acceptCoin (fun _ _ _ _ => false) (fun _ => []) ("BANK".data) 1
        (fun _ => true)
        ⟨[], 1, [], [], [], "EVIL-1-g-h-h".data, [], [], none⟩).1 ≠
      .error (.malformedCoin ("EVIL".data))) :=
  ⟨by decide, rfl, fun h => AcceptError.noConfusion (Except.error.inj h)⟩

/-- C6 amended: a coin whose leading issuer tag differs from the expected
bank identifier is rejected with `malformedCoin` before any hash
comparison of shares, but only after signature verification succeeds: in
the source the tag check follows the cryptographic signature check instead
of preceding it. -/
theorem accept_malformed_tag (verify : Option Nat → Str → Str → Str → Bool)
    (hash : Bytes → Str) (bankStr : Str) (k : Nat) (bits : Nat → Bool)
    (c : Coin) (hv : verify c.signature c.n c.e c.coinString = true)
    (ht : (splitChar '-' c.coinString).getD 0 [] ≠ bankStr) :
    (acceptCoin verify hash bankStr k bits c).1 =
      .error (.malformedCoin ((splitChar '-' c.coinString).getD 0 [])) := by
  have hp : parseCoin bankStr c.coinString =
      .error (.malformedCoin ((splitChar '-' c.coinString).getD 0 [])) := by
    unfold parseCoin
    rw [if_pos ht]
  simp [acceptCoin, hv, hp]

theorem accept_malformed_tag_witness :
    ((fun (_ : Option Nat) (_ _ _ : Str) => true)
        (some 0) [] [] ("EVIL-1-g-h-h".data) = true) ∧
    ((splitChar '-' ("EVIL-1-g-h-h".data)).getD 0 [] ≠ "BANK".data) ∧
    ((acceptCoin (fun _ _ _ _ => true) (fun _ => []) ("BANK".data) 1
        (fun _ => true)
        ⟨[], 1, [], [], [], "EVIL-1-g-h-h".data, [], [], some 0⟩).1 =
      .error (.malformedCoin
        ((splitChar '-' ("EVIL-1-g-h-h".data)).getD 0 []))) :=
  ⟨rfl, by decide,
    accept_malformed_tag (fun _ _ _ _ => true) (fun _ => []) ("BANK".data) 1
      (fun _ => true)
      ⟨[], 1, [], [], [], "EVIL-1-g-h-h".data, [], [], some 0⟩ rfl (by decide)⟩

/-- C8: `attach_signature` on a coin already carrying a signature fails
with `alreadySigned`; on an unsigned coin it is a pure data assignment
storing the signature and changing no other field, with no verification of
the signature value. -/
theorem attachSignature_spec (c : Coin) (sig : Nat) :
    (c.signature = none →
      attachSignature c sig = .ok { c with signature := some sig }) ∧
    (∀ s0, c.signature = some s0 →
      attachSignature c sig = .error .alreadySigned) := by
  constructor
  · intro h
    unfold attachSignature
    rw [h]
  · intro s0 h
    unfold attachSignature
    rw [h]

theorem attachSignature_spec_witness :
    ((⟨[], 0, [], [], [], [], [], [], none⟩ : Coin).signature = none ∧
      attachSignature ⟨[], 0, [], [], [], [], [], [], none⟩ 5 =
        .ok { (⟨[], 0, [], [], [], [], [], [], none⟩ : Coin) with
          signature := some 5 }) ∧
    ((⟨[], 0, [], [], [], [], [], [], some 7⟩ : Coin).signature = some 7 ∧
      attachSignature ⟨[], 0, [], [], [], [], [], [], some 7⟩ 5 =
        .error .alreadySigned) :=
  ⟨⟨rfl, (attachSignature_spec ⟨[], 0, [], [], [], [], [], [], none⟩ 5).1 rfl⟩,
    ⟨rfl, (attachSignature_spec ⟨[], 0, [], [], [], [], [], [], some 7⟩ 5).2
      7 rfl⟩⟩

/-- C9: acceptance does not mutate the coin: the coin record after an
acceptance call — whether it accepts or rejects — is the very coin passed
in, field for field (signature, shares, commitment string, guid, bank
parameters), so the same coin value can be presented to another
merchant. -/
theorem accept_coin_unchanged (verify : Option Nat → Str → Str → Str → Bool)
    (hash : Bytes → Str) (bankStr : Str) (k : Nat) (bits : Nat → Bool)
    (c : Coin) :
    (acceptCoin verify hash bankStr k bits c).2 = c ∧
    (acceptCoin verify hash bankStr k bits c).2.signature = c.signature ∧
    (acceptCoin verify hash bankStr k bits c).2.leftShares = c.leftShares ∧
    (acceptCoin verify hash bankStr k bits c).2.rightShares = c.rightShares ∧
    (acceptCoin verify hash bankStr k bits c).2.coinString = c.coinString ∧
    (acceptCoin verify hash bankStr k bits c).2.guid = c.guid ∧
    (acceptCoin verify hash bankStr k bits c).2.n = c.n ∧
    (acceptCoin verify hash bankStr k bits c).2.e = c.e := by
  have h : (acceptCoin verify hash bankStr k bits c).2 = c := by
    cases hval : verify c.signature c.n c.e c.coinString with
    | false => simp [acceptCoin, hval]
    | true =>
      cases hp : parseCoin bankStr c.coinString with
      | error e => simp [acceptCoin, hval, hp]
      | ok p =>
        obtain ⟨lh, rh⟩ := p
        simp [acceptCoin, hval, hp]
  exact ⟨h, by rw [h], by rw [h], by rw [h], by rw [h], by rw [h], by rw [h],
    by rw [h]⟩

end ECash
